import Mathlib

open scoped Matrix

/-!
Verification of the RT0-P0 mixed finite element discretizer (`rt0.py`).

The development embeds the discretizer shallowly:

* numpy/scipy dense and sparse arrays become Lean functions over `Fin`
  index types with entries in `ℚ` (the source computes with floating point;
  all claims under study are exact algebraic identities, so we work in the
  exact field `ℚ`);
* the grid object and the outputs of the external Geometry Mapper
  (`pp.cg.map_grid`) are bundled into a `Grid` structure; the parameter
  container (`data["param"]`) becomes a `DataCtx` structure whose optional
  fields model Python `None`;
* Python object mutation of the permeability tensor is made explicit with a
  small store (`Store`) of tensor objects addressed by index: `k.copy()`
  allocates a fresh cell, `k.rotate(R)` and the `np.delete` assignments
  update the addressed cell in place;
* code paths that raise become `Except`/`Option` results.

Unknown-vector layout follows the source invariant "faces dof are put before
the cell dof": the degree-of-freedom index type is `Fin num_faces ⊕
Fin num_cells`, with `Sum.inl` the face block and `Sum.inr` the cell block.
-/

/-- Error kinds of the discretizer (section 7 of the design): `ValueError`
raised by `ndof` on an unsupported entity is `InvalidEntityKind`; the
`assert` guarding boundary data in `rhs` is `InconsistentBoundaryData`. -/
inductive RTError where
  | InvalidEntityKind
  | InconsistentBoundaryData
  deriving DecidableEq

/-- Mesh/grid data consumed by the discretizer, together with the outputs of
the external Geometry Mapper `pp.cg.map_grid(g)`.  `cell_faces` is the
oriented face-cell incidence matrix (entries `±1` or `0`); `face_nodes f` is
the sorted list of node ids of face `f` (the `indptr` slice of the sparse
face-node map).  The mapped arrays `c_centers`, `f_normals`, `f_centers`,
`node_coords` are restricted to the `dim` active rows, as `map_grid` returns
them; `R` is the 3×3 rotation to the reference frame and `dimMask` the
active-dimension mask of length 3. -/
structure Grid where
  dim : ℕ
  num_cells : ℕ
  num_faces : ℕ
  cell_faces : Matrix (Fin num_faces) (Fin num_cells) ℚ
  face_nodes : Fin num_faces → List ℕ
  cell_volumes : Fin num_cells → ℚ
  face_areas : Fin num_faces → ℚ
  c_centers : Fin dim → Fin num_cells → ℚ
  f_normals : Fin dim → Fin num_faces → ℚ
  f_centers : Fin dim → Fin num_faces → ℚ
  R : Matrix (Fin 3) (Fin 3) ℚ
  dimMask : Fin 3 → Bool
  node_coords : Fin dim → ℕ → ℚ

/-- Mortar (interface) grid: only its cell count is consumed by `ndof`. -/
structure MortarGrid where
  num_cells : ℕ

/-- Tagged variant of the runtime `isinstance` dispatch in `ndof`:
a full grid, a mortar grid, or any other Python object. -/
inductive Entity where
  | grid (g : Grid)
  | mortar (m : MortarGrid)
  | other

/-- Degree-of-freedom index type: the face dof precede the cell dof. -/
abbrev Dof (g : Grid) := Fin g.num_faces ⊕ Fin g.num_cells

/-- Boundary-condition descriptor: per-face flags and Robin weights. -/
structure BoundaryCond (nf : ℕ) where
  is_dir : Fin nf → Bool
  is_neu : Fin nf → Bool
  is_rob : Fin nf → Bool
  is_internal : Fin nf → Bool
  robin_weight : Fin nf → ℚ

/-- A permeability tensor object (`pp.SecondOrderTensor`): `perm i j c` is
the `(i, j)` entry of the tensor of cell `c`.  Indices are plain naturals
because `np.delete` changes the array's extent. -/
structure PermTensor where
  perm : ℕ → ℕ → ℕ → ℚ

instance : Inhabited PermTensor := ⟨⟨fun _ _ _ => 0⟩⟩

/-- The heap of tensor objects; `DataCtx.kRef` addresses into it.  This makes
Python aliasing explicit: an in-place tensor operation rewrites one store
cell, and `k.copy()` allocates a fresh cell at the end. -/
abbrev Store := List PermTensor

/-- The parameter container `data["param"]` plus the `is_tangential` flag of
the `data` dictionary.  `bc`/`bc_val` are `Option` because the container may
hold `None` for them; `kRef` is the store address of the permeability
tensor returned by `get_tensor`. -/
structure DataCtx (g : Grid) where
  kRef : ℕ
  bc : Option (BoundaryCond g.num_faces)
  bc_val : Option (Fin g.num_faces → ℚ)
  source : Fin g.num_cells → ℚ
  aperture : Fin g.num_cells → ℚ
  is_tangential : Bool

/-- Degrees of freedom of an entity: `num_cells + num_faces` for a full grid,
`num_cells` for a mortar grid, `ValueError` (`InvalidEntityKind`) otherwise. -/
def RT0.ndof : Entity → Except RTError ℕ
  | .grid g => .ok (g.num_cells + g.num_faces)
  | .mortar m => .ok m.num_cells
  | .other => .error .InvalidEntityKind

/-- Insert into a sorted list (helper for modelling `np.unique`). -/
def insertSorted (a : ℕ) : List ℕ → List ℕ
  | [] => [a]
  | b :: t => if a ≤ b then a :: b :: t else b :: insertSorted a t

/-- Model of `np.unique`: sorted list of the distinct elements. -/
def sortDedup (l : List ℕ) : List ℕ :=
  (l.foldr insertSorted []).dedup

/-- The lookup `RT0.opposite_side_node`: for each face of the cell, the nodes of the
cell not belonging to that face (`np.setdiff1d(nodes_loc, f)`), flattened.
For a simplicial cell each set difference is a singleton. -/
def RT0.opposite_side_node {nf : ℕ} (face_nodes : Fin nf → List ℕ)
    (faces_loc : List (Fin nf)) : List ℕ :=
  let fnl := faces_loc.map fun f => face_nodes f
  let nodes_loc := sortDedup fnl.flatten
  (fnl.map fun l => nodes_loc.filter (fun x => decide (x ∉ l))).flatten

/-- Local faces of cell `c` in ascending face order (the CSC column slice
`faces[g.cell_faces.indptr[c] : g.cell_faces.indptr[c+1]]`). -/
def facesLoc (g : Grid) (c : Fin g.num_cells) : List (Fin g.num_faces) :=
  (List.finRange g.num_faces).filter (fun f => decide (g.cell_faces f c ≠ 0))

/-- First index of a product `Fin` block index: `i % d`. -/
def finMod {d m : ℕ} (i : Fin (d * m)) : Fin d :=
  ⟨i.val % d, Nat.mod_lt _ (by
    rcases Nat.eq_zero_or_pos d with h | h
    · exact absurd i.isLt (by simp [h])
    · exact h)⟩

/-- Block index of a product `Fin` index: `i / d`. -/
def finCol {d m : ℕ} (i : Fin (d * m)) : Fin m :=
  ⟨i.val / d, by
    rcases Nat.eq_zero_or_pos d with h | h
    · exact absurd i.isLt (by simp [h])
    · exact (Nat.div_lt_iff_lt_mul h).mpr (by rw [Nat.mul_comm m d]; exact i.isLt)⟩

/-- Model of `np.linalg.inv`: on an invertible matrix the inverse is
`det⁻¹ • adjugate` (Cramer); written that way to stay computable. -/
def npInv {n : ℕ} (A : Matrix (Fin n) (Fin n) ℚ) : Matrix (Fin n) (Fin n) ℚ :=
  (A.det)⁻¹ • A.adjugate

/-- Model of `scipy.linalg.block_diag(*([B] * m))`: block-diagonal matrix with `m`
copies of the `d × d` block `B`. -/
def blockDiag (d m : ℕ) (B : Matrix (Fin d) (Fin d) ℚ) :
    Matrix (Fin (d * m)) (Fin (d * m)) ℚ :=
  Matrix.of fun i j =>
    if i.val / d = j.val / d then B (finMod i) (finMod j) else 0

/-- The `diagflat` band loop of `matrix()` before symmetrization:
`for it in np.arange(0, size_HB, g.dim): HB += np.diagflat(np.ones(size_HB - it), it)`. -/
def bandA (d : ℕ) : Matrix (Fin (d * (d + 1))) (Fin (d * (d + 1))) ℚ :=
  ∑ t ∈ Finset.range (d + 1),
    Matrix.of fun i j => if j.val = i.val + d * t then 1 else 0

/-- The reference weight matrix `HB` as assembled in `matrix()`:
symmetrize the band sum and scale by `1 / (dim² (dim+1) (dim+2))`. -/
def HBmat (d : ℕ) : Matrix (Fin (d * (d + 1))) (Fin (d * (d + 1))) ℚ :=
  ((d : ℚ) * d * (d + 1) * (d + 2))⁻¹ • (bandA d + (bandA d)ᵀ)

/-- The matrix `N` of `massHdiv`:
`coord.flatten("F").reshape((-1,1)) * ones((1, dim+1)) - tile(coord, (dim+1, 1))`,
so `N[i, j] = coord[i % d, i / d] - coord[i % d, j]`. -/
def massN (d : ℕ) (coord : ℕ → Fin (d + 1) → ℚ) :
    Matrix (Fin (d * (d + 1))) (Fin (d + 1)) ℚ :=
  Matrix.of fun i j => coord (finMod i).val (finCol i) - coord (finMod i).val j

/-- The local assembler `RT0.massHdiv`: local H(div) mass matrix
`Cᵀ · Nᵀ · HB · (block_diag(inv K) / volume) · N · C`.
`coord` is the opposite-node coordinate array; its row slice `coord[0:dim,:]`
is what `massN` reads. -/
def RT0.massHdiv (dim : ℕ) (K : Matrix (Fin dim) (Fin dim) ℚ) (c_volume : ℚ)
    (coord : ℕ → Fin (dim + 1) → ℚ) (sign : Fin (dim + 1) → ℚ)
    (HB : Matrix (Fin (dim * (dim + 1))) (Fin (dim * (dim + 1))) ℚ) :
    Matrix (Fin (dim + 1)) (Fin (dim + 1)) ℚ :=
  let inv_K := c_volume⁻¹ • blockDiag dim (dim + 1) (npInv K)
  let N := massN dim coord
  let C : Matrix (Fin (dim + 1)) (Fin (dim + 1)) ℚ := Matrix.diagonal sign
  Cᵀ * (Nᵀ * (HB * (inv_K * (N * C))))

/-- Coordinates of the opposite nodes of a cell (`node_coords[:, node]`),
as a total function on row indices; `massN` only reads rows `< g.dim`. -/
def localCoord (g : Grid) (nodeL : List ℕ) : ℕ → Fin (g.dim + 1) → ℚ :=
  fun r j =>
    if h : r < g.dim then g.node_coords ⟨r, h⟩ (nodeL.getD j.val 0) else 0

/-- The local H(div) mass matrix of cell `c` as computed in the assembly
loop of `matrix()`: permeability slice `a[c] * k.perm[0:dim, 0:dim, c]`,
opposite-node coordinates, and the cell-local orientation signs. -/
def localMass (g : Grid) (k : PermTensor) (a : Fin g.num_cells → ℚ)
    (c : Fin g.num_cells) : Matrix (Fin (g.dim + 1)) (Fin (g.dim + 1)) ℚ :=
  let floc := facesLoc g c
  let nodeL := RT0.opposite_side_node g.face_nodes floc
  RT0.massHdiv g.dim
    (Matrix.of fun i j => a c * k.perm i.val j.val c)
    (g.cell_volumes c)
    (localCoord g nodeL)
    (fun j => (floc.map (fun f => g.cell_faces f c)).getD j.val 0)
    (HBmat g.dim)

/-- The global mass block assembled from the COO triplets: entry `(i, j)`
sums `A[p, q]` over all cells `c` and local positions `p, q` whose local
faces are `i` and `j` (duplicate triplets sum, as in `sps.coo_matrix`). -/
def massBlock (g : Grid) (k : PermTensor) (a : Fin g.num_cells → ℚ) :
    Matrix (Fin g.num_faces) (Fin g.num_faces) ℚ :=
  Matrix.of fun i j =>
    ∑ c : Fin g.num_cells, ∑ p : Fin (g.dim + 1), ∑ q : Fin (g.dim + 1),
      match (facesLoc g c)[p.val]?, (facesLoc g c)[q.val]? with
      | some fp, some fq =>
          if fp = i ∧ fq = j then localMass g k a c p q else 0
      | _, _ => 0

/-- Model of `sps.linalg.norm(·, np.inf)`: maximum over rows of the absolute row sum. -/
def infNorm {m n : ℕ} (A : Matrix (Fin m) (Fin n) ℚ) : ℚ :=
  ((List.finRange m).map (fun i => ∑ j, |A i j|)).foldr max 0

/-- The saddle-point matrix before boundary conditions:
`div = -g.cell_faces.T`, `M = bmat([[mass, div.T], [div, None]])`. -/
def massDivMatrix (g : Grid) (k : PermTensor) (a : Fin g.num_cells → ℚ) :
    Matrix (Dof g) (Dof g) ℚ :=
  let mass := massBlock g k a
  let div := -g.cell_facesᵀ
  Matrix.fromBlocks mass divᵀ div 0

/-- Neumann branch of `matrix()`: when some non-internal face is flagged
Neumann, zero out each such face's row and put `norm` on its diagonal
(`M.data[...] = 0` row clearing followed by `setdiag`). -/
def applyNeu (g : Grid) (bc : BoundaryCond g.num_faces) (norm : ℚ)
    (M : Matrix (Dof g) (Dof g) ℚ) : Matrix (Dof g) (Dof g) ℚ :=
  if (List.finRange g.num_faces).any (fun f => bc.is_neu f && !bc.is_internal f) then
    Matrix.of fun r c =>
      match r with
      | Sum.inl f =>
          if bc.is_neu f && !bc.is_internal f then
            (if c = Sum.inl f then norm else 0)
          else M (Sum.inl f) c
      | Sum.inr cc => M (Sum.inr cc) c
  else M

/-- The diagonal vector added by the Robin branch of `matrix()`:
`1 / (robin_weight * face_areas)` on non-internal Robin faces. -/
def robVec (g : Grid) (bc : BoundaryCond g.num_faces) : Dof g → ℚ :=
  Sum.elim
    (fun f =>
      if bc.is_rob f && !bc.is_internal f then
        1 / (bc.robin_weight f * g.face_areas f)
      else 0)
    (fun _ => 0)

/-- Robin branch of `matrix()`: add the diagonal `robVec` matrix when some
non-internal face is flagged Robin. -/
def applyRob (g : Grid) (bc : BoundaryCond g.num_faces)
    (M : Matrix (Dof g) (Dof g) ℚ) : Matrix (Dof g) (Dof g) ℚ :=
  if (List.finRange g.num_faces).any (fun f => bc.is_rob f && !bc.is_internal f) then
    M + Matrix.diagonal (robVec g bc)
  else M

/-- Linear position of a dof in the `[faces..., cells...]` layout. -/
def linDof (g : Grid) : Dof g → ℕ :=
  Sum.elim Fin.val (fun c => g.num_faces + c.val)

/-- The 0-dimensional matrix `sps.dia_matrix(([1, 0], 0), (ndof, ndof))`:
the main diagonal is filled from the data `[1, 0]` (positions past its
extent are zero). -/
def dia10 (g : Grid) : Matrix (Dof g) (Dof g) ℚ :=
  Matrix.of fun i j =>
    if i = j then ([(1 : ℚ), 0]).getD (linDof g i) 0 else 0

/-- Model of `k.rotate(R)` of `pp.SecondOrderTensor`: per cell, `R · perm · Rᵀ`
on the 3×3 entries. -/
def tensor_rotate (R : Matrix (Fin 3) (Fin 3) ℚ) (t : PermTensor) : PermTensor :=
  ⟨fun i j c =>
    if hi : i < 3 then
      if hj : j < 3 then
        ∑ p : Fin 3, ∑ q : Fin 3, R ⟨i, hi⟩ p * t.perm p.val q.val c * R ⟨j, hj⟩ q
      else t.perm i j c
    else t.perm i j c⟩

/-- Model of `np.delete(perm, remove_dim, axis=0/1)`: keep the rows/columns not in
`remove`, compressing the index range `0..2`. -/
def tensor_delete (remove : List ℕ) (t : PermTensor) : PermTensor :=
  let keep := (List.range 3).filter (fun r => decide (r ∉ remove))
  ⟨fun i j c => t.perm (keep.getD i (i + 3)) (keep.getD j (j + 3)) c⟩

/-- The tensor-preparation prologue of `matrix()` as store operations:
unless the data is tangential, for `dim < 3` take a fresh copy of the
tensor (`k = k.copy()`), rotate it in place (`k.rotate(R)`), and delete the
inactive axes (`k.perm = np.delete(...)`).  Returns the store address of
the tensor subsequently used and the updated store. -/
def matrix_prep_k (g : Grid) (data : DataCtx g) (s : Store) : ℕ × Store :=
  if data.is_tangential = false then
    if g.dim < 3 then
      let i := s.length
      let s1 := s ++ [s.getD data.kRef default]
      let s2 := s1.set i (tensor_rotate g.R (s1.getD i default))
      let remove_dim := ((List.finRange 3).filter (fun r => !g.dimMask r)).map Fin.val
      let s3 := s2.set i (tensor_delete remove_dim (s2.getD i default))
      (i, s3)
    else (data.kRef, s)
  else (data.kRef, s)

/-- The tensor value that the assembly loop of `matrix()` reads. -/
def preparedK (g : Grid) (data : DataCtx g) (s : Store) : PermTensor :=
  (matrix_prep_k g data s).2.getD (matrix_prep_k g data s).1 default

/-- The assembler `RT0.matrix`: the assembled saddle-point matrix together with the
boundary weight (the source returns the weight only when `bc_weight` is
set; we always return the pair, with weight `1` otherwise, mirroring
`norm = ... if bc_weight else 1`), and the resulting tensor store.
A 0-dimensional grid short-circuits to the fixed diagonal `[1, 0]`; a
missing boundary descriptor makes the general branch fail (`bc.is_neu`
on `None` raises), modelled as `none`. -/
def RT0.matrix (g : Grid) (data : DataCtx g) (s : Store) (bc_weight : Bool) :
    Option (Matrix (Dof g) (Dof g) ℚ × ℚ) × Store :=
  if g.dim = 0 then (some (dia10 g, 1), s)
  else
    match data.bc with
    | none => (none, s)
    | some bc =>
        let k := preparedK g data s
        let M0 := massDivMatrix g k data.aperture
        let norm := if bc_weight then infNorm (massBlock g k data.aperture) else 1
        let M1 := applyNeu g bc norm M0
        let M2 := applyRob g bc M1
        (some (M2, norm), (matrix_prep_k g data s).2)

/-- Matrix component of a `RT0.matrix` result (zero if the call failed). -/
def matrixOf {I : Type} (r : Option (Matrix I I ℚ × ℚ) × Store) :
    Matrix I I ℚ :=
  (r.1.map Prod.fst).getD 0

/-- The per-face orientation sign used by `rhs()`:
`sign = sign[np.unique(faces, return_index=True)[1]]` keeps, for every face,
the sign of its first occurrence in the column-major `sps.find` output,
i.e. the orientation in the lowest-indexed cell containing the face. -/
def bcSign (g : Grid) (f : Fin g.num_faces) : ℚ :=
  match (List.finRange g.num_cells).find? (fun c => decide (g.cell_faces f c ≠ 0)) with
  | some c => g.cell_faces f c
  | none => 0

/-- Dirichlet stage of `rhs()`:
`rhs[is_dir] += -sign[is_dir] * bc_val[is_dir]` on non-internal Dirichlet
faces, guarded by `np.any(is_dir)`. -/
def rhs_dir (g : Grid) (bc : BoundaryCond g.num_faces)
    (bv : Fin g.num_faces → ℚ) (r : Dof g → ℚ) : Dof g → ℚ :=
  if (List.finRange g.num_faces).any (fun f => bc.is_dir f && !bc.is_internal f) then
    fun x =>
      match x with
      | Sum.inl f =>
          if bc.is_dir f && !bc.is_internal f then
            r (Sum.inl f) + (-(bcSign g f) * bv f)
          else r (Sum.inl f)
      | Sum.inr c => r (Sum.inr c)
  else r

/-- Robin stage of `rhs()`:
`rhs[is_rob] += -sign[is_rob] * bc_val[is_rob] / robin_weight[is_rob]`. -/
def rhs_rob (g : Grid) (bc : BoundaryCond g.num_faces)
    (bv : Fin g.num_faces → ℚ) (r : Dof g → ℚ) : Dof g → ℚ :=
  if (List.finRange g.num_faces).any (fun f => bc.is_rob f && !bc.is_internal f) then
    fun x =>
      match x with
      | Sum.inl f =>
          if bc.is_rob f && !bc.is_internal f then
            r (Sum.inl f) + (-(bcSign g f) * bv f / bc.robin_weight f)
          else r (Sum.inl f)
      | Sum.inr c => r (Sum.inr c)
  else r

/-- Neumann stage of `rhs()`: an overwrite, not an accumulation:
`rhs[is_neu] = sign[is_neu] * bc_weight * bc_val[is_neu]`. -/
def rhs_neu (g : Grid) (bc : BoundaryCond g.num_faces)
    (bv : Fin g.num_faces → ℚ) (w : ℚ) (r : Dof g → ℚ) : Dof g → ℚ :=
  if (List.finRange g.num_faces).any (fun f => bc.is_neu f && !bc.is_internal f) then
    fun x =>
      match x with
      | Sum.inl f =>
          if bc.is_neu f && !bc.is_internal f then bcSign g f * w * bv f
          else r (Sum.inl f)
      | Sum.inr c => r (Sum.inr c)
  else r

/-- The boundary stages of `rhs()` applied in source order to the zero
vector: Dirichlet, then Robin, then the Neumann overwrite. -/
def rhs_assemble (g : Grid) (bc : BoundaryCond g.num_faces)
    (bv : Fin g.num_faces → ℚ) (w : ℚ) : Dof g → ℚ :=
  rhs_neu g bc bv w (rhs_rob g bc bv (rhs_dir g bc bv (fun _ => 0)))

/-- The positive-dimensional branch of `RT0.rhs`: the `assert` fails
(`InconsistentBoundaryData`) when exactly one of the boundary descriptor
and the boundary value array is `None`; with both absent the zero vector of
full dof length is returned; otherwise the boundary stages run.  The source
term `f = param.get_source(self)` is read but not used on this branch. -/
def rhs_general (g : Grid) (data : DataCtx g) (w : ℚ) :
    Except RTError (Dof g → ℚ) :=
  match data.bc, data.bc_val with
  | none, none => .ok (fun _ => 0)
  | some bc, some bv => .ok (rhs_assemble g bc bv w)
  | _, _ => .error .InconsistentBoundaryData

/-- The 0-dimensional branch of `RT0.rhs`: `np.hstack(([0], f))` with `f`
the per-cell source array. -/
def rhs_dim0 (g : Grid) (data : DataCtx g) : List ℚ :=
  (0 : ℚ) :: List.ofFn data.source

/-- Value of a successful `rhs_general` result (zero vector on failure). -/
def rhsValue {g : Grid} (r : Except RTError (Dof g → ℚ)) : Dof g → ℚ :=
  r.toOption.getD (fun _ => 0)

/-- Position of row `r` among the rows selected by the boolean mask
(numpy fancy assignment `P0u[dim, c] = v` writes `v[k]` into the `k`-th
`True` row). -/
def maskRank (mask : Fin 3 → Bool) (r : Fin 3) : ℕ :=
  ((List.finRange 3).filter (fun x => decide (x < r) && mask x)).length

/-- The post-processor `RT0.project_u`: cell-wise P0 velocity reconstruction.  For each cell,
`Pi[:, j] = (cell_center - opposite_node_j) / ((face_center_j - opposite_node_j) · normal_j)`,
the local velocity `Pi · u[faces_loc] * aperture[c]` is scattered into the
active rows (`P0u[dim, c] = ...`), and the column is rotated back with
`R.T`.  A 0-dimensional grid returns zeros. -/
def RT0.project_u (g : Grid) (u : Fin g.num_faces → ℚ) (data : DataCtx g) :
    Matrix (Fin 3) (Fin g.num_cells) ℚ :=
  if g.dim = 0 then 0
  else
    Matrix.of fun r c =>
      let floc := facesLoc g c
      let nodeL := RT0.opposite_side_node g.face_nodes floc
      -- rows of the mapped arrays restricted to the local faces / opposite
      -- nodes, as lists of entries (row index outer, face index inner)
      let fcL : List (List ℚ) :=
        (List.finRange g.dim).map fun rr => floc.map fun f => g.f_centers rr f
      let fnL : List (List ℚ) :=
        (List.finRange g.dim).map fun rr => floc.map fun f => g.f_normals rr f
      let ncL : List (List ℚ) :=
        (List.finRange g.dim).map fun rr => nodeL.map fun n => g.node_coords rr n
      let ccL : List ℚ := (List.finRange g.dim).map fun rr => g.c_centers rr c
      let uL : List ℚ := floc.map fun f => u f
      -- np.einsum("ij,ij->j", delta_f, normals)
      let denom : ℕ → ℚ := fun j =>
        ∑ rr ∈ Finset.range g.dim,
          ((fcL.getD rr []).getD j 0 - (ncL.getD rr []).getD j 0) *
            (fnL.getD rr []).getD j 0
      -- row rr of Pi · u[faces_loc] · aperture[c]
      let v : ℕ → ℚ := fun rr =>
        (∑ j ∈ Finset.range floc.length,
            ((ccL.getD rr 0 - (ncL.getD rr []).getD j 0) / denom j) *
              uL.getD j 0) * data.aperture c
      let mid : Fin 3 → ℚ := fun rr =>
        if g.dimMask rr then v (maskRank g.dimMask rr) else 0
      ∑ rr : Fin 3, g.R rr r * mid rr

/-- Concrete 1-dimensional two-node interval grid, embedded along the
global z-axis: `map_grid` rotates z into the first axis (`R` maps
`e_z ↦ e_x`), the active mask selects row 0, and the mapped coordinates put
node 0 at 0 and node 1 at 1.  Face 0 (left end) has orientation `-1`,
face 1 (right end) `+1`. -/
def gEx : Grid where
  dim := 1
  num_cells := 1
  num_faces := 2
  cell_faces := Matrix.of fun f _ => if f.val = 0 then -1 else 1
  face_nodes := fun f => [f.val]
  cell_volumes := fun _ => 1
  face_areas := fun _ => 1
  c_centers := fun _ _ => 1 / 2
  f_normals := fun _ _ => 1
  f_centers := fun _ f => (f.val : ℚ)
  R := Matrix.of fun i j =>
    if (i.val = 0 ∧ j.val = 2) ∨ (i.val = 1 ∧ j.val = 0) ∨ (i.val = 2 ∧ j.val = 1)
    then 1 else 0
  dimMask := fun x => decide (x.val = 0)
  node_coords := fun _ n => (n : ℚ)

/-- The same interval grid aligned with the first coordinate axis: the
geometry mapper's rotation is the identity and the active mask selects the
first `dim` rows. -/
def gAx : Grid where
  dim := 1
  num_cells := 1
  num_faces := 2
  cell_faces := Matrix.of fun f _ => if f.val = 0 then -1 else 1
  face_nodes := fun f => [f.val]
  cell_volumes := fun _ => 1
  face_areas := fun _ => 1
  c_centers := fun _ _ => 1 / 2
  f_normals := fun _ _ => 1
  f_centers := fun _ f => (f.val : ℚ)
  R := 1
  dimMask := fun x => decide (x.val < 1)
  node_coords := fun _ n => (n : ℚ)

/-- Concrete 0-dimensional (point) grid: one cell, no faces. -/
def g0 : Grid where
  dim := 0
  num_cells := 1
  num_faces := 0
  cell_faces := Matrix.of fun _ _ => 0
  face_nodes := fun _ => []
  cell_volumes := fun _ => 1
  face_areas := fun _ => 1
  c_centers := fun _ _ => 0
  f_normals := fun _ _ => 0
  f_centers := fun _ _ => 0
  R := 1
  dimMask := fun _ => false
  node_coords := fun _ _ => 0

/-- Boundary descriptor with no flagged faces. -/
def bcEx : BoundaryCond gEx.num_faces where
  is_dir := fun _ => false
  is_neu := fun _ => false
  is_rob := fun _ => false
  is_internal := fun _ => false
  robin_weight := fun _ => 1

/-- Boundary descriptor flagging every face internal while also flagging it
Neumann and Robin (the internal override must win). -/
def bcInt : BoundaryCond gEx.num_faces where
  is_dir := fun _ => false
  is_neu := fun _ => true
  is_rob := fun _ => true
  is_internal := fun _ => true
  robin_weight := fun _ => 2

/-- Boundary descriptor flagging face 0 simultaneously Dirichlet, Robin and
Neumann, nothing internal. -/
def bcMix : BoundaryCond gEx.num_faces where
  is_dir := fun f => decide (f.val = 0)
  is_neu := fun f => decide (f.val = 0)
  is_rob := fun f => decide (f.val = 0)
  is_internal := fun _ => false
  robin_weight := fun _ => 3

/-- Data context for `gEx`: unit isotropic permeability at store address 0,
empty boundary flags, zero boundary values and source, unit aperture. -/
def dataEx : DataCtx gEx where
  kRef := 0
  bc := some bcEx
  bc_val := some fun _ => 0
  source := fun _ => 0
  aperture := fun _ => 1
  is_tangential := false

/-- Variant of `dataEx` with a nonzero scalar source. -/
def dataS5 : DataCtx gEx := { dataEx with source := fun _ => 5 }

/-- Variant of `dataEx` with the internal-override boundary descriptor. -/
def dataInt : DataCtx gEx := { dataEx with bc := some bcInt, bc_val := some fun _ => 3 }

/-- Variant of `dataEx` with the boundary descriptor removed but values still present
(exactly one of the two, which `rhs` must reject). -/
def dataOnlyVal : DataCtx gEx := { dataEx with bc := none }

/-- Data context for the axis-aligned grid `gAx`. -/
def dataAx : DataCtx gAx where
  kRef := 0
  bc := some { is_dir := fun _ => false, is_neu := fun _ => false,
               is_rob := fun _ => false, is_internal := fun _ => false,
               robin_weight := fun _ => 1 }
  bc_val := some fun _ => 0
  source := fun _ => 0
  aperture := fun _ => 1
  is_tangential := false

/-- Data context for the point grid `g0`. -/
def data0 : DataCtx g0 where
  kRef := 0
  bc := none
  bc_val := none
  source := fun _ => 4
  aperture := fun _ => 1
  is_tangential := false

/-- A concrete tensor object for exercising the store. -/
def tEx : PermTensor := ⟨fun _ _ _ => 7⟩

/-- Unit face-flux vector on `gEx`/`gAx`. -/
def uEx : Fin 2 → ℚ := fun _ => 1

/-- Positivity of `d` recovered from an inhabitant of `Fin (d * m)`. -/
theorem dPos {d m : ℕ} (i : Fin (d * m)) : 0 < d := by
  rcases Nat.eq_zero_or_pos d with h | h
  · exact absurd i.isLt (by simp [h])
  · exact h

/-- Setting a store cell leaves other cells unchanged. -/
theorem store_getD_set_ne (l : Store) (n m : ℕ) (a : PermTensor) (h : m ≠ n) :
    (l.set n a).getD m default = l.getD m default := by
  rw [List.getD_eq_getElem?_getD, List.getD_eq_getElem?_getD,
    List.getElem?_set_ne (fun hnm => h hnm.symm)]

/-- Appending to the store leaves existing cells unchanged. -/
theorem store_getD_append (l : Store) (x : PermTensor) (m : ℕ) (h : m < l.length) :
    (l ++ [x]).getD m default = l.getD m default := by
  rw [List.getD_eq_getElem?_getD, List.getD_eq_getElem?_getD,
    List.getElem?_append_left h]

/-- The tensor prologue of `matrix()` only writes the freshly copied cell:
every pre-existing store cell is unchanged. -/
theorem matrix_prep_k_preserves (g : Grid) (data : DataCtx g) (s : Store)
    (j : ℕ) (hj : j < s.length) :
    ((matrix_prep_k g data s).2).getD j default = s.getD j default := by
  unfold matrix_prep_k
  by_cases ht : data.is_tangential = false
  · rw [if_pos ht]
    by_cases hd : g.dim < 3
    · rw [if_pos hd]
      have hne : j ≠ s.length := Nat.ne_of_lt hj
      simp only
      rw [store_getD_set_ne _ _ _ _ hne]
      rw [store_getD_set_ne _ _ _ _ hne]
      exact store_getD_append s _ j hj
    · rw [if_neg hd]
  · rw [if_neg ht]

/-- C7: `ndof(entity)` returns `num_cells + num_faces` for every
full-dimensional grid, `num_cells` for every mortar/interface grid, and
fails with `InvalidEntityKind` for every other entity kind. -/
theorem rt0_ndof_spec :
    (∀ g : Grid, RT0.ndof (Entity.grid g) = .ok (g.num_cells + g.num_faces)) ∧
    (∀ m : MortarGrid, RT0.ndof (Entity.mortar m) = .ok m.num_cells) ∧
    RT0.ndof Entity.other = .error RTError.InvalidEntityKind :=
  ⟨fun _ => rfl, fun _ => rfl, rfl⟩

/-- C8: on a positive-dimensional mesh, `rhs` fails with
`InconsistentBoundaryData` iff exactly one of the boundary descriptor and
the boundary value array is present, and with both absent it returns the
all-zero vector of full dof length. -/
theorem rt0_rhs_bc_consistency (g : Grid) (data : DataCtx g) (w : ℚ)
    (hdim : 0 < g.dim) :
    (rhs_general g data w = .error RTError.InconsistentBoundaryData ↔
      data.bc.isSome ≠ data.bc_val.isSome) ∧
    (data.bc = none → data.bc_val = none →
      rhs_general g data w = .ok (fun _ => 0)) := by
  rcases hb : data.bc with _ | bc <;> rcases hv : data.bc_val with _ | bv <;>
    simp [rhs_general, hb, hv]

/-- Witness for C8 at a concrete mesh: with the boundary descriptor absent
but values present, `rhs` fails with `InconsistentBoundaryData`. -/
theorem rt0_rhs_bc_consistency_witness :
    0 < gEx.dim ∧
      rhs_general gEx dataOnlyVal 1 = .error RTError.InconsistentBoundaryData :=
  ⟨by decide,
    (rt0_rhs_bc_consistency gEx dataOnlyVal 1 (by decide)).1.mpr (by decide)⟩

/-- C9: for a 0-dimensional mesh, `matrix(g, data, bc_weight=True)` returns
the fixed diagonal matrix with diagonal data `[1, 0]` of dof-square shape
and weight exactly `1`, leaving the store untouched, for every data context
(the statement quantifies over `data`, which never occurs on the right-hand
side: no field of the data context is read). -/
theorem rt0_matrix_dim0 (g : Grid) (data : DataCtx g) (s : Store)
    (h0 : g.dim = 0) :
    RT0.matrix g data s true = (some (dia10 g, 1), s) ∧
      Fintype.card (Dof g) = g.num_cells + g.num_faces := by
  constructor
  · simp [RT0.matrix, h0]
  · simp only [Dof, Fintype.card_sum, Fintype.card_fin]
    omega

/-- Witness for C9 at the concrete point grid. -/
theorem rt0_matrix_dim0_witness :
    RT0.matrix g0 data0 [] true = (some (dia10 g0, 1), []) ∧
      Fintype.card (Dof g0) = g0.num_cells + g0.num_faces :=
  rt0_matrix_dim0 g0 data0 [] rfl

/-- C10: `matrix(g, data, bc_weight)` does not mutate the tensor objects
that existed before the call: every store cell below the original length
(in particular the permeability tensor `data.kRef` of the data context) is
identical before and after; the rotated, dimension-reduced tensor lives in
a fresh copy. -/
theorem rt0_matrix_no_mutation (g : Grid) (data : DataCtx g) (s : Store)
    (w : Bool) (j : ℕ) (hj : j < s.length) :
    ((RT0.matrix g data s w).2).getD j default = s.getD j default := by
  unfold RT0.matrix
  by_cases h0 : g.dim = 0
  · rw [if_pos h0]
  · rw [if_neg h0]
    rcases hb : data.bc with _ | bc
    · simp [hb]
    · simp only [hb]
      exact matrix_prep_k_preserves g data s j hj

/-- Witness for C10: a one-tensor store passes through a full `matrix`
call (which copies, rotates and reduces the tensor) unchanged at its
original address. -/
theorem rt0_matrix_no_mutation_witness :
    0 < ([tEx] : Store).length ∧
      ((RT0.matrix gEx dataEx [tEx] false).2).getD 0 default
        = ([tEx] : Store).getD 0 default :=
  ⟨by decide, rt0_matrix_no_mutation gEx dataEx [tEx] false 0 (by decide)⟩

/-- On a positive-dimensional grid with a boundary descriptor present,
`matrix` is the pre-boundary saddle matrix with the Neumann and Robin
branches applied on top. -/
theorem matrix_pos_eq (g : Grid) (data : DataCtx g) (s : Store) (w : Bool)
    (bc : BoundaryCond g.num_faces) (hdim : g.dim ≠ 0) (hbc : data.bc = some bc) :
    matrixOf (RT0.matrix g data s w) =
      applyRob g bc (applyNeu g bc
        (if w then infNorm (massBlock g (preparedK g data s) data.aperture) else 1)
        (massDivMatrix g (preparedK g data s) data.aperture)) := by
  simp [RT0.matrix, matrixOf, hbc, hdim]

/-- The Neumann branch leaves the row of an internal face unchanged. -/
theorem applyNeu_internal_row (g : Grid) (bc : BoundaryCond g.num_faces)
    (norm : ℚ) (M : Matrix (Dof g) (Dof g) ℚ) (f : Fin g.num_faces)
    (col : Dof g) (hint : bc.is_internal f = true) :
    applyNeu g bc norm M (Sum.inl f) col = M (Sum.inl f) col := by
  unfold applyNeu
  by_cases hn : ((List.finRange g.num_faces).any
      fun f' => bc.is_neu f' && !bc.is_internal f') = true
  · rw [if_pos hn]; simp [hint]
  · rw [if_neg hn]

/-- The Robin branch leaves the row of an internal face unchanged. -/
theorem applyRob_internal_row (g : Grid) (bc : BoundaryCond g.num_faces)
    (M : Matrix (Dof g) (Dof g) ℚ) (f : Fin g.num_faces) (col : Dof g)
    (hint : bc.is_internal f = true) :
    applyRob g bc M (Sum.inl f) col = M (Sum.inl f) col := by
  unfold applyRob
  by_cases hro : ((List.finRange g.num_faces).any
      fun f' => bc.is_rob f' && !bc.is_internal f') = true
  · rw [if_pos hro, Matrix.add_apply]
    have hz : Matrix.diagonal (robVec g bc) (Sum.inl f) col = 0 := by
      rcases eq_or_ne (Sum.inl f : Dof g) col with he | he
      · rw [← he, Matrix.diagonal_apply_eq]; simp [robVec, hint]
      · rw [Matrix.diagonal_apply_ne _ he]
    rw [hz, add_zero]
  · rw [if_neg hro]

/-- C2: a face flagged internal keeps its matrix row (diagonal included)
exactly as in the pre-boundary saddle matrix — the Neumann and Robin
branches skip it — and receives no Dirichlet/Robin/Neumann contribution in
`rhs`, even when it is also flagged `is_neu`, `is_rob` or `is_dir`. -/
theorem rt0_internal_faces_untouched (g : Grid) (data : DataCtx g) (s : Store)
    (w : Bool) (bc : BoundaryCond g.num_faces) (bv : Fin g.num_faces → ℚ)
    (wr : ℚ) (f : Fin g.num_faces) (col : Dof g)
    (hdim : g.dim ≠ 0) (hbc : data.bc = some bc)
    (hint : bc.is_internal f = true) :
    matrixOf (RT0.matrix g data s w) (Sum.inl f) col
        = massDivMatrix g (preparedK g data s) data.aperture (Sum.inl f) col
      ∧ rhs_assemble g bc bv wr (Sum.inl f) = 0 := by
  constructor
  · rw [matrix_pos_eq g data s w bc hdim hbc, applyRob_internal_row _ _ _ _ _ hint,
      applyNeu_internal_row _ _ _ _ _ _ hint]
  · unfold rhs_assemble
    have h3 : ∀ r : Dof g → ℚ, rhs_neu g bc bv wr r (Sum.inl f) = r (Sum.inl f) := by
      intro r; unfold rhs_neu
      by_cases h : ((List.finRange g.num_faces).any
          fun f' => bc.is_neu f' && !bc.is_internal f') = true
      · rw [if_pos h]; simp [hint]
      · rw [if_neg h]
    have h2 : ∀ r : Dof g → ℚ, rhs_rob g bc bv r (Sum.inl f) = r (Sum.inl f) := by
      intro r; unfold rhs_rob
      by_cases h : ((List.finRange g.num_faces).any
          fun f' => bc.is_rob f' && !bc.is_internal f') = true
      · rw [if_pos h]; simp [hint]
      · rw [if_neg h]
    have h1 : ∀ r : Dof g → ℚ, rhs_dir g bc bv r (Sum.inl f) = r (Sum.inl f) := by
      intro r; unfold rhs_dir
      by_cases h : ((List.finRange g.num_faces).any
          fun f' => bc.is_dir f' && !bc.is_internal f') = true
      · rw [if_pos h]; simp [hint]
      · rw [if_neg h]
    rw [h3, h2, h1]

/-- Witness for C2: on the concrete interval grid whose faces are flagged
internal (and simultaneously Neumann and Robin), the assembled matrix row
of face 0 is the untouched pre-boundary row and the rhs entry is zero. -/
theorem rt0_internal_faces_untouched_witness :
    matrixOf (RT0.matrix gEx dataInt [] false) (Sum.inl ⟨0, by decide⟩)
          (Sum.inl ⟨0, by decide⟩)
        = massDivMatrix gEx (preparedK gEx dataInt []) dataInt.aperture
          (Sum.inl ⟨0, by decide⟩) (Sum.inl ⟨0, by decide⟩)
      ∧ rhs_assemble gEx bcInt (fun _ => 3) 1 (Sum.inl ⟨0, by decide⟩) = 0 :=
  rt0_internal_faces_untouched gEx dataInt [] false bcInt (fun _ => 3) 1
    ⟨0, by decide⟩ (Sum.inl ⟨0, by decide⟩) (by decide) rfl rfl

/-- C6: in `rhs` on a positive-dimensional mesh with boundary data present,
a non-internal Dirichlet face accumulates `-sign[f] * bc_val[f]` (on top of
the zero initial vector), a non-internal Robin face accumulates
`-sign[f] * bc_val[f] / robin_weight[f]` on top of the Dirichlet stage, and
a non-internal Neumann face is overwritten to
`sign[f] * weight * bc_val[f]` regardless of the earlier stages. -/
theorem rt0_rhs_bc_values (g : Grid) (bc : BoundaryCond g.num_faces)
    (bv : Fin g.num_faces → ℚ) (w : ℚ) (f1 f2 f3 : Fin g.num_faces)
    (hdim : 0 < g.dim)
    (hd1 : bc.is_dir f1 = true) (hi1 : bc.is_internal f1 = false)
    (hr2 : bc.is_rob f2 = true) (hi2 : bc.is_internal f2 = false)
    (hn3 : bc.is_neu f3 = true) (hi3 : bc.is_internal f3 = false) :
    rhs_dir g bc bv (fun _ => 0) (Sum.inl f1) = -(bcSign g f1) * bv f1
      ∧ rhs_rob g bc bv (rhs_dir g bc bv (fun _ => 0)) (Sum.inl f2)
          = rhs_dir g bc bv (fun _ => 0) (Sum.inl f2)
            + (-(bcSign g f2) * bv f2 / bc.robin_weight f2)
      ∧ rhs_assemble g bc bv w (Sum.inl f3) = bcSign g f3 * w * bv f3 := by
  refine ⟨?_, ?_, ?_⟩
  · have hg : ((List.finRange g.num_faces).any
        fun f => bc.is_dir f && !bc.is_internal f) = true :=
      List.any_eq_true.mpr ⟨f1, List.mem_finRange f1, by simp [hd1, hi1]⟩
    unfold rhs_dir
    rw [if_pos hg]
    simp [hd1, hi1]
  · have hg : ((List.finRange g.num_faces).any
        fun f => bc.is_rob f && !bc.is_internal f) = true :=
      List.any_eq_true.mpr ⟨f2, List.mem_finRange f2, by simp [hr2, hi2]⟩
    conv_lhs => rw [rhs_rob]
    rw [if_pos hg]
    simp [hr2, hi2]
  · have hg : ((List.finRange g.num_faces).any
        fun f => bc.is_neu f && !bc.is_internal f) = true :=
      List.any_eq_true.mpr ⟨f3, List.mem_finRange f3, by simp [hn3, hi3]⟩
    unfold rhs_assemble rhs_neu
    rw [if_pos hg]
    simp [hn3, hi3]

/-- Witness for C6 on the concrete interval grid: face 0 is flagged
Dirichlet, Robin and Neumann at once (not internal), and the three stage
formulas hold there. -/
theorem rt0_rhs_bc_values_witness :
    rhs_dir gEx bcMix (fun _ => 2) (fun _ => 0) (Sum.inl ⟨0, by decide⟩)
        = -(bcSign gEx ⟨0, by decide⟩) * 2
      ∧ rhs_rob gEx bcMix (fun _ => 2) (rhs_dir gEx bcMix (fun _ => 2) (fun _ => 0))
            (Sum.inl ⟨0, by decide⟩)
          = rhs_dir gEx bcMix (fun _ => 2) (fun _ => 0) (Sum.inl ⟨0, by decide⟩)
            + (-(bcSign gEx ⟨0, by decide⟩) * 2 / bcMix.robin_weight ⟨0, by decide⟩)
      ∧ rhs_assemble gEx bcMix (fun _ => 2) 5 (Sum.inl ⟨0, by decide⟩)
          = bcSign gEx ⟨0, by decide⟩ * 5 * 2 :=
  rt0_rhs_bc_values gEx bcMix (fun _ => 2) 5 ⟨0, by decide⟩ ⟨0, by decide⟩
    ⟨0, by decide⟩ (by decide) rfl rfl rfl rfl rfl rfl

/-- Counterexample for C1 as stated: on the concrete positive-dimensional
interval grid, the top-right entry `M[face 1, cell 0]` is NOT the negative
of the bottom-left entry `M[cell 0, face 1]` (both equal `-1`; the blocks
agree with the plain transpose, not its negative). -/
theorem rt0_saddle_sign_cex :
    0 < gEx.dim ∧
      matrixOf (RT0.matrix gEx dataEx [] false)
          (Sum.inl ⟨1, by decide⟩) (Sum.inr ⟨0, by decide⟩)
        ≠ -(matrixOf (RT0.matrix gEx dataEx [] false)
          (Sum.inr ⟨0, by decide⟩) (Sum.inl ⟨1, by decide⟩)) :=
  ⟨by decide, by decide⟩

/-- C1 (amended): for every positive-dimensional mesh whose boundary
descriptor flags no non-internal Neumann face, the returned saddle-point
matrix satisfies `M[0:F, F:] = (M[F:, 0:F])ᵀ` — the coupling blocks agree
with the plain (positive) transpose; both already carry the negative sign
of `div = -cell_faces.T`.  (Neumann row-zeroing breaks the relation, which
forces the Neumann exclusion; the Robin branch only touches the diagonal
of the face block.) -/
theorem rt0_saddle_blocks_transpose (g : Grid) (data : DataCtx g) (s : Store)
    (w : Bool) (bc : BoundaryCond g.num_faces) (hdim : g.dim ≠ 0)
    (hbc : data.bc = some bc)
    (hneu : ∀ f, bc.is_neu f = true → bc.is_internal f = true) :
    (matrixOf (RT0.matrix g data s w)).toBlocks₁₂
      = ((matrixOf (RT0.matrix g data s w)).toBlocks₂₁)ᵀ := by
  rw [matrix_pos_eq g data s w bc hdim hbc]
  have hg : ((List.finRange g.num_faces).any
      fun f => bc.is_neu f && !bc.is_internal f) = false := by
    simp only [List.any_eq_false]
    intro f _
    cases hn : bc.is_neu f
    · simp
    · simp [hneu f hn]
  rw [applyNeu, if_neg (by simp [hg])]
  unfold applyRob
  by_cases hr : ((List.finRange g.num_faces).any
      fun f => bc.is_rob f && !bc.is_internal f) = true
  · rw [if_pos hr]
    ext f c
    rfl
  · rw [if_neg hr]
    ext f c
    rfl

/-- Witness for the amended C1 at the concrete interval grid with no
boundary flags at all. -/
theorem rt0_saddle_blocks_transpose_witness :
    (matrixOf (RT0.matrix gEx dataEx [] false)).toBlocks₁₂
      = ((matrixOf (RT0.matrix gEx dataEx [] false)).toBlocks₂₁)ᵀ :=
  rt0_saddle_blocks_transpose gEx dataEx [] false bcEx (by decide) rfl (by decide)

/-- Counterexample for C4 as stated: on the concrete positive-dimensional
interval grid, two data contexts differing only in the scalar source (5
versus 0) produce identical rhs vectors, and the cell-pressure block is
zero — the returned vector does not depend on the source. -/
theorem rt0_rhs_source_cex :
    dataS5.source ⟨0, by decide⟩ = 5 ∧ dataEx.source ⟨0, by decide⟩ = 0 ∧
      rhsValue (rhs_general gEx dataS5 1) = rhsValue (rhs_general gEx dataEx 1) ∧
      rhsValue (rhs_general gEx dataS5 1) (Sum.inr ⟨0, by decide⟩) = 0 :=
  ⟨rfl, rfl, by decide, by decide⟩

/-- C4 (amended): the scalar source enters the right-hand side only through
the 0-dimensional branch, where the result is `[0, source...]`; on the
positive-dimensional branch the result is independent of the source (the
source is read but unused there). -/
theorem rt0_rhs_source_only_dim0 (g : Grid) (d1 d2 : DataCtx g) (w : ℚ)
    (hk : d1.kRef = d2.kRef) (hb : d1.bc = d2.bc) (hv : d1.bc_val = d2.bc_val)
    (ha : d1.aperture = d2.aperture) (ht : d1.is_tangential = d2.is_tangential) :
    rhs_general g d1 w = rhs_general g d2 w
      ∧ rhs_dim0 g d1 = (0 : ℚ) :: List.ofFn d1.source := by
  refine ⟨?_, rfl⟩
  unfold rhs_general
  rw [hb, hv]

/-- Witness for the amended C4: the two concrete contexts differing only in
their source give the same positive-dimensional rhs. -/
theorem rt0_rhs_source_only_dim0_witness :
    dataS5.kRef = dataEx.kRef ∧
      (rhs_general gEx dataS5 1 = rhs_general gEx dataEx 1
        ∧ rhs_dim0 gEx dataS5 = (0 : ℚ) :: List.ofFn dataS5.source) :=
  ⟨rfl, rt0_rhs_source_only_dim0 gEx dataS5 dataEx 1 rfl rfl rfl rfl rfl⟩

/-- Counterexample for C5 as stated: the concrete interval grid (dimension
1 < 3) runs along the global z-axis, so after the rotation `R.T` back to
the global frame, row 2 of the projected velocity is nonzero. -/
theorem rt0_project_u_rows_cex :
    gEx.dim < 3 ∧ gEx.dim ≤ 2 ∧
      RT0.project_u gEx uEx dataEx 2 ⟨0, by decide⟩ ≠ 0 := by
  refine ⟨by decide, by decide, ?_⟩
  have hval : RT0.project_u gEx uEx dataEx 2 ⟨0, by decide⟩ = 1 := by
    have hdim : gEx.dim = 1 := rfl
    have hcc : ∀ rr cc, gEx.c_centers rr cc = 1 / 2 := fun _ _ => rfl
    have hnc : ∀ rr n, gEx.node_coords rr n = (n : ℚ) := fun _ _ => rfl
    have hfc : ∀ rr f, gEx.f_centers rr f = (f.val : ℚ) := fun _ _ => rfl
    have hfn : ∀ rr f, gEx.f_normals rr f = 1 := fun _ _ => rfl
    have hmask : ∀ rr : Fin 3, gEx.dimMask rr = decide (rr.val = 0) := fun _ => rfl
    have ha : ∀ cc, dataEx.aperture cc = 1 := fun _ => rfl
    have hcf : ∀ (f : Fin gEx.num_faces) (c : Fin gEx.num_cells),
        gEx.cell_faces f c = if f.val = 0 then -1 else 1 := fun _ _ => rfl
    have hfnodes : ∀ f : Fin gEx.num_faces, gEx.face_nodes f = [f.val] :=
      fun _ => rfl
    have hR : ∀ i j : Fin 3, gEx.R i j =
        if (i.val = 0 ∧ j.val = 2) ∨ (i.val = 1 ∧ j.val = 0) ∨ (i.val = 2 ∧ j.val = 1)
        then 1 else 0 := fun _ _ => rfl
    simp [RT0.project_u, hdim, hcc, hnc, hfc, hfn, hmask, ha, hR,
      uEx, maskRank, Fin.sum_univ_succ, Finset.sum_range_succ]
    norm_num [facesLoc, RT0.opposite_side_node, sortDedup, insertSorted,
      List.finRange, List.ofFn_succ, List.filter_cons, hcf, hfnodes,
      Finset.sum_range_succ, Finset.sum_range_zero]
  rw [hval]
  norm_num

/-- C5 (amended): rows `d..2` of `project_u` vanish in the local reference
frame; in particular, whenever the geometry mapper's rotation is the
identity and the active mask selects the first `d` coordinates (an
axis-aligned mesh), the returned array has rows `d..2` exactly zero. -/
theorem rt0_project_u_rows_zero (g : Grid) (u : Fin g.num_faces → ℚ)
    (data : DataCtx g) (r : Fin 3) (c : Fin g.num_cells)
    (hR : g.R = 1) (hmask : ∀ x : Fin 3, g.dimMask x = decide (x.val < g.dim))
    (hr : g.dim ≤ r.val) :
    RT0.project_u g u data r c = 0 := by
  unfold RT0.project_u
  by_cases h0 : g.dim = 0
  · rw [if_pos h0]
    simp
  · rw [if_neg h0]
    simp only [Matrix.of_apply, hR, Matrix.one_apply, boole_mul,
      Finset.sum_ite_eq', Finset.mem_univ, if_true]
    rw [hmask r, show (decide (r.val < g.dim)) = false from
      decide_eq_false (by omega)]
    simp

/-- Witness for the amended C5 on the axis-aligned interval grid. -/
theorem rt0_project_u_rows_zero_witness :
    RT0.project_u gAx uEx dataAx 2 ⟨0, by decide⟩ = 0 :=
  rt0_project_u_rows_zero gAx uEx dataAx 2 ⟨0, by decide⟩ rfl (fun _ => rfl)
    (by decide)

/-- Divisibility of a difference versus equality of remainders. -/
theorem mod_sub_iff (d a b : ℕ) (h : a ≤ b) :
    (b - a) % d = 0 ↔ a % d = b % d :=
  ⟨fun hz => (Nat.modEq_iff_dvd' h).mpr (Nat.dvd_of_mod_eq_zero hz),
   fun hm => Nat.sub_mod_eq_zero_of_mod_eq hm.symm⟩

/-- Entry formula for the band sum `bandA`: a one sits exactly on the
superdiagonals whose offset is a multiple of `d`. -/
theorem bandA_apply (d : ℕ) (i j : Fin (d * (d + 1))) :
    bandA d i j =
      if i.val ≤ j.val ∧ (j.val - i.val) % d = 0 then 1 else 0 := by
  have hd : 0 < d := dPos i
  unfold bandA
  rw [Matrix.sum_apply]
  simp only [Matrix.of_apply]
  by_cases h : i.val ≤ j.val ∧ (j.val - i.val) % d = 0
  · rw [if_pos h]
    obtain ⟨h1, h2⟩ := h
    have hdvd : d ∣ (j.val - i.val) := Nat.dvd_of_mod_eq_zero h2
    have hjeq : j.val = i.val + d * ((j.val - i.val) / d) := by
      rw [Nat.mul_div_cancel' hdvd]; omega
    rw [Finset.sum_eq_single ((j.val - i.val) / d)]
    · rw [if_pos hjeq]
    · intro t _ hne
      rw [if_neg]
      intro hEq
      apply hne
      have hsub : j.val - i.val = d * t := by omega
      rw [hsub, Nat.mul_div_cancel_left _ hd]
    · intro habs
      have hmem : (j.val - i.val) / d ∈ Finset.range (d + 1) := by
        apply Finset.mem_range.mpr
        apply (Nat.div_lt_iff_lt_mul hd).mpr
        have hcomm : (d + 1) * d = d * (d + 1) := Nat.mul_comm _ _
        have := j.isLt
        omega
      exact absurd hmem habs
  · rw [if_neg h]
    apply Finset.sum_eq_zero
    intro t _
    rw [if_neg]
    intro hEq
    apply h
    refine ⟨by omega, ?_⟩
    have hsub : j.val - i.val = d * t := by omega
    rw [hsub]
    exact Nat.mul_mod_right d t

/-- Entry formula for the assembled reference matrix `HB`: up to the global
scale it is the identity plus the indicator of congruent indices mod `d`. -/
theorem hb_apply (d : ℕ) (i j : Fin (d * (d + 1))) :
    HBmat d i j = ((d : ℚ) * d * (d + 1) * (d + 2))⁻¹ *
      ((if i = j then 1 else 0) + (if i.val % d = j.val % d then 1 else 0)) := by
  have hd : 0 < d := dPos i
  unfold HBmat
  rw [Matrix.smul_apply, Matrix.add_apply, Matrix.transpose_apply,
    bandA_apply, bandA_apply, smul_eq_mul]
  congr 1
  by_cases hij : i = j
  · subst hij; simp
  · have hv : i.val ≠ j.val := fun hv => hij (Fin.ext hv)
    rw [if_neg hij]
    rcases Nat.lt_or_ge i.val j.val with hlt | hge
    · rw [if_neg (show ¬(j.val ≤ i.val ∧ (i.val - j.val) % d = 0) from
        fun hc => absurd hc.1 (by omega)), add_zero, zero_add]
      by_cases hm : i.val % d = j.val % d
      · rw [if_pos (show i.val ≤ j.val ∧ (j.val - i.val) % d = 0 from
          ⟨Nat.le_of_lt hlt, (mod_sub_iff d i.val j.val (Nat.le_of_lt hlt)).mpr hm⟩),
          if_pos hm]
      · rw [if_neg (show ¬(i.val ≤ j.val ∧ (j.val - i.val) % d = 0) from
          fun hc => hm ((mod_sub_iff d i.val j.val (Nat.le_of_lt hlt)).mp hc.2)),
          if_neg hm]
    · have hlt : j.val < i.val := by omega
      rw [if_neg (show ¬(i.val ≤ j.val ∧ (j.val - i.val) % d = 0) from
        fun hc => absurd hc.1 (by omega)), zero_add]
      by_cases hm : i.val % d = j.val % d
      · rw [if_pos (show j.val ≤ i.val ∧ (i.val - j.val) % d = 0 from
          ⟨Nat.le_of_lt hlt, (mod_sub_iff d j.val i.val (Nat.le_of_lt hlt)).mpr hm.symm⟩),
          if_pos hm, zero_add]
      · rw [if_neg (show ¬(j.val ≤ i.val ∧ (i.val - j.val) % d = 0) from
          fun hc => hm ((mod_sub_iff d j.val i.val (Nat.le_of_lt hlt)).mp hc.2).symm),
          if_neg hm, zero_add]

/-- The assembled reference matrix `HB` is symmetric. -/
theorem hb_symm (d : ℕ) : (HBmat d)ᵀ = HBmat d := by
  unfold HBmat
  rw [Matrix.transpose_smul, Matrix.transpose_add, Matrix.transpose_transpose]
  congr 1
  exact add_comm _ _

/-- A block-diagonal matrix of a symmetric block is symmetric. -/
theorem blockDiag_symm {d m : ℕ} {B : Matrix (Fin d) (Fin d) ℚ}
    (hB : Bᵀ = B) : (blockDiag d m B)ᵀ = blockDiag d m B := by
  ext i j
  rw [Matrix.transpose_apply]
  show (if j.val / d = i.val / d then B (finMod j) (finMod i) else 0)
      = (if i.val / d = j.val / d then B (finMod i) (finMod j) else 0)
  by_cases h : j.val / d = i.val / d
  · rw [if_pos h, if_pos h.symm]
    show Bᵀ (finMod i) (finMod j) = B (finMod i) (finMod j)
    rw [hB]
  · rw [if_neg h, if_neg (fun hh => h hh.symm)]

/-- Inversion of a symmetric matrix (`np.linalg.inv`) is symmetric. -/
theorem npInv_symm {n : ℕ} {A : Matrix (Fin n) (Fin n) ℚ} (hA : Aᵀ = A) :
    (npInv A)ᵀ = npInv A := by
  unfold npInv
  rw [Matrix.transpose_smul, Matrix.adjugate_transpose, hA]

/-- Summing the congruence indicator against a block-diagonal column picks
the block entry: for each `j` there is exactly one index with the block of
`j` and the remainder of `i`. -/
theorem sum_mod_match_right (d : ℕ) (B : Matrix (Fin d) (Fin d) ℚ)
    (i j : Fin (d * (d + 1))) :
    (∑ k : Fin (d * (d + 1)),
        (if i.val % d = k.val % d then (1 : ℚ) else 0) * blockDiag d (d + 1) B k j)
      = B (finMod i) (finMod j) := by
  have hd : 0 < d := dPos i
  have hk0lt : d * (j.val / d) + i.val % d < d * (d + 1) := by
    have h1 : j.val / d < d + 1 := by
      apply (Nat.div_lt_iff_lt_mul hd).mpr
      have hcomm : (d + 1) * d = d * (d + 1) := Nat.mul_comm _ _
      have := j.isLt
      omega
    have h2 : i.val % d < d := Nat.mod_lt _ hd
    calc d * (j.val / d) + i.val % d < d * (j.val / d) + d := by omega
      _ = d * (j.val / d + 1) := by ring
      _ ≤ d * (d + 1) := Nat.mul_le_mul_left d h1
  rw [Finset.sum_eq_single (⟨d * (j.val / d) + i.val % d, hk0lt⟩ : Fin (d * (d + 1)))]
  · have hmod : (d * (j.val / d) + i.val % d) % d = i.val % d := by
      rw [Nat.mul_add_mod]
      exact Nat.mod_mod_of_dvd _ dvd_rfl
    have hdiv : (d * (j.val / d) + i.val % d) / d = j.val / d := by
      rw [Nat.mul_add_div hd, Nat.div_eq_of_lt (Nat.mod_lt _ hd), Nat.add_zero]
    rw [if_pos hmod.symm, one_mul]
    show (if (d * (j.val / d) + i.val % d) / d = j.val / d then _ else 0)
        = B (finMod i) (finMod j)
    rw [if_pos hdiv]
    congr 1
    exact Fin.ext hmod
  · intro k _ hk
    by_cases hm : i.val % d = k.val % d
    · rw [if_pos hm, one_mul]
      show (if k.val / d = j.val / d then B (finMod k) (finMod j) else 0) = 0
      rw [if_neg]
      intro hdv
      apply hk
      apply Fin.ext
      show k.val = d * (j.val / d) + i.val % d
      conv_lhs => rw [← Nat.div_add_mod k.val d]
      rw [hdv, ← hm]
    · rw [if_neg hm, zero_mul]
  · intro habs
    exact absurd (Finset.mem_univ _) habs

/-- Mirror of `sum_mod_match_right`: block-diagonal row against the
congruence indicator. -/
theorem sum_mod_match_left (d : ℕ) (B : Matrix (Fin d) (Fin d) ℚ)
    (i j : Fin (d * (d + 1))) :
    (∑ k : Fin (d * (d + 1)),
        blockDiag d (d + 1) B i k * (if k.val % d = j.val % d then (1 : ℚ) else 0))
      = B (finMod i) (finMod j) := by
  have hd : 0 < d := dPos i
  have hk0lt : d * (i.val / d) + j.val % d < d * (d + 1) := by
    have h1 : i.val / d < d + 1 := by
      apply (Nat.div_lt_iff_lt_mul hd).mpr
      have hcomm : (d + 1) * d = d * (d + 1) := Nat.mul_comm _ _
      have := i.isLt
      omega
    have h2 : j.val % d < d := Nat.mod_lt _ hd
    calc d * (i.val / d) + j.val % d < d * (i.val / d) + d := by omega
      _ = d * (i.val / d + 1) := by ring
      _ ≤ d * (d + 1) := Nat.mul_le_mul_left d h1
  rw [Finset.sum_eq_single (⟨d * (i.val / d) + j.val % d, hk0lt⟩ : Fin (d * (d + 1)))]
  · have hmod : (d * (i.val / d) + j.val % d) % d = j.val % d := by
      rw [Nat.mul_add_mod]
      exact Nat.mod_mod_of_dvd _ dvd_rfl
    have hdiv : (d * (i.val / d) + j.val % d) / d = i.val / d := by
      rw [Nat.mul_add_div hd, Nat.div_eq_of_lt (Nat.mod_lt _ hd), Nat.add_zero]
    rw [if_pos hmod, mul_one]
    show (if i.val / d = (d * (i.val / d) + j.val % d) / d then _ else 0)
        = B (finMod i) (finMod j)
    rw [if_pos hdiv.symm]
    congr 1
    exact Fin.ext hmod
  · intro k _ hk
    by_cases hm : k.val % d = j.val % d
    · rw [if_pos hm, mul_one]
      show (if i.val / d = k.val / d then B (finMod i) (finMod k) else 0) = 0
      rw [if_neg]
      intro hdv
      apply hk
      apply Fin.ext
      show k.val = d * (i.val / d) + j.val % d
      conv_lhs => rw [← Nat.div_add_mod k.val d]
      rw [← hdv, hm]
    · rw [if_neg hm, mul_zero]
  · intro habs
    exact absurd (Finset.mem_univ _) habs

/-- The assembled `HB` commutes with every block-diagonal matrix of block
size `d`: writing `HB = c (I + Q)` with `Q` the indicator of congruent
indices mod `d`, both `Q·blockDiag B` and `blockDiag B·Q` equal the matrix
`(i, j) ↦ B (i % d) (j % d)`. -/
theorem blockDiag_comm (d : ℕ) (B : Matrix (Fin d) (Fin d) ℚ) :
    HBmat d * blockDiag d (d + 1) B = blockDiag d (d + 1) B * HBmat d := by
  ext i j
  rw [Matrix.mul_apply, Matrix.mul_apply]
  have hL : ∀ k, HBmat d i k * blockDiag d (d + 1) B k j
      = ((d : ℚ) * d * (d + 1) * (d + 2))⁻¹ *
          ((if i = k then (1 : ℚ) else 0) * blockDiag d (d + 1) B k j)
        + ((d : ℚ) * d * (d + 1) * (d + 2))⁻¹ *
          ((if i.val % d = k.val % d then (1 : ℚ) else 0) * blockDiag d (d + 1) B k j) := by
    intro k; rw [hb_apply]; ring
  have hR : ∀ k, blockDiag d (d + 1) B i k * HBmat d k j
      = ((d : ℚ) * d * (d + 1) * (d + 2))⁻¹ *
          (blockDiag d (d + 1) B i k * (if k = j then (1 : ℚ) else 0))
        + ((d : ℚ) * d * (d + 1) * (d + 2))⁻¹ *
          (blockDiag d (d + 1) B i k * (if k.val % d = j.val % d then (1 : ℚ) else 0)) := by
    intro k; rw [hb_apply]; ring
  rw [Finset.sum_congr rfl (fun k _ => hL k), Finset.sum_congr rfl (fun k _ => hR k),
    Finset.sum_add_distrib, Finset.sum_add_distrib,
    ← Finset.mul_sum, ← Finset.mul_sum, ← Finset.mul_sum, ← Finset.mul_sum]
  have e1 : (∑ k, (if i = k then (1 : ℚ) else 0) * blockDiag d (d + 1) B k j)
      = blockDiag d (d + 1) B i j := by
    simp only [boole_mul]
    rw [Finset.sum_ite_eq]
    simp
  have e3 : (∑ k, blockDiag d (d + 1) B i k * (if k = j then (1 : ℚ) else 0))
      = blockDiag d (d + 1) B i j := by
    simp only [mul_boole]
    rw [Finset.sum_ite_eq']
    simp
  rw [e1, e3, sum_mod_match_right, sum_mod_match_left]

/-- Transposing a congruence `Pᵀ · X · P` of a symmetric matrix gives the
congruence back. -/
theorem conj_symm {a b : ℕ} (P : Matrix (Fin a) (Fin b) ℚ)
    (X : Matrix (Fin a) (Fin a) ℚ) (hX : Xᵀ = X) :
    (Pᵀ * (X * P))ᵀ = Pᵀ * (X * P) := by
  rw [Matrix.transpose_mul, Matrix.transpose_mul, Matrix.transpose_transpose,
    hX, Matrix.mul_assoc]

/-- C3: `massHdiv`, applied with the symmetric reference weight matrix `HB`
built in `matrix()`, returns a symmetric `(dim+1)×(dim+1)` matrix for every
symmetric permeability `K` (in particular every SPD `K`), every cell
volume, every opposite-node coordinate matrix and every sign vector. -/
theorem rt0_massHdiv_symmetric (d : ℕ) (K : Matrix (Fin d) (Fin d) ℚ)
    (vol : ℚ) (coord : ℕ → Fin (d + 1) → ℚ) (sign : Fin (d + 1) → ℚ)
    (hK : Kᵀ = K) :
    (RT0.massHdiv d K vol coord sign (HBmat d))ᵀ
      = RT0.massHdiv d K vol coord sign (HBmat d) := by
  have hX : (HBmat d * (vol⁻¹ • blockDiag d (d + 1) (npInv K)))ᵀ
      = HBmat d * (vol⁻¹ • blockDiag d (d + 1) (npInv K)) := by
    rw [Matrix.transpose_mul, Matrix.transpose_smul,
      blockDiag_symm (npInv_symm hK), hb_symm,
      Matrix.smul_mul, Matrix.mul_smul, blockDiag_comm]
  have hform : RT0.massHdiv d K vol coord sign (HBmat d)
      = (massN d coord * Matrix.diagonal sign)ᵀ *
        ((HBmat d * (vol⁻¹ • blockDiag d (d + 1) (npInv K))) *
          (massN d coord * Matrix.diagonal sign)) := by
    simp [RT0.massHdiv, Matrix.transpose_mul, Matrix.mul_assoc]
  rw [hform]
  exact conj_symm _ _ hX

/-- Witness for C3 at a concrete symmetric 1×1 permeability. -/
theorem rt0_massHdiv_symmetric_witness :
    ((Matrix.of fun _ _ => (2 : ℚ)) : Matrix (Fin 1) (Fin 1) ℚ)ᵀ
        = (Matrix.of fun _ _ => (2 : ℚ))
      ∧ (RT0.massHdiv 1 (Matrix.of fun _ _ => (2 : ℚ)) 1
          (fun r j => (r : ℚ) + (j.val : ℚ)) (fun _ => 1) (HBmat 1))ᵀ
        = RT0.massHdiv 1 (Matrix.of fun _ _ => (2 : ℚ)) 1
          (fun r j => (r : ℚ) + (j.val : ℚ)) (fun _ => 1) (HBmat 1) :=
  ⟨by decide, rt0_massHdiv_symmetric 1 (Matrix.of fun _ _ => (2 : ℚ)) 1
    (fun r j => (r : ℚ) + (j.val : ℚ)) (fun _ => 1) (by decide)⟩
